import Mathlib

/-!
# Verification of the xcquinox patch set

Shallow embedding of the two patched components of the repository:

* `get_veff` (rks.py patch): the effective-potential evaluator with the
  NaN-triggered network fallback and the "restore symmetry" transform
  `L · vxc · (Matrix.transpose L)` with `L = np.eye(dm.shape[-1])`.
* the LDA/GGA/MGGA branches of the numerical-integration kernel
  (numint.py patch): the try/except dispatch between the extended and
  the minimal `eval_xc` interface, the `[:2]` unpacking, and the
  `nelec`/`excsum` accumulation with `stop_grad`.

Scalars that can be IEEE-special are modelled by `FVal` (a rational, NaN,
or a signed infinity); matrices by `Matrix (Fin n) (Fin n) ℚ`; the
differentiation semantics of jax (`stop_grad`, differentiability of the
accumulated energy) by forward-mode dual numbers.
-/

/-- A floating-point scalar as far as the patch can observe it:
a finite value (modelled exactly as a rational), NaN, or ±∞.
`np.isnan` distinguishes NaN from the infinities. -/
inductive FVal where
  | finite (q : ℚ)
  | nan
  | inf
  | ninf
deriving DecidableEq

/-- Embedding of `np.isnan` on scalars: true exactly on NaN
(in particular false on ±∞). -/
def FVal.isnan : FVal → Bool
  | .nan => true
  | _ => false

/-- A scalar is a finite number iff it is neither NaN nor ±∞. -/
def FVal.isFinite : FVal → Bool
  | .finite _ => true
  | _ => false

/-- The raw gradient returned by `jax.value_and_grad(ks.network_eval)(dm)`:
either a single `n×n` matrix (`ndim == 2`) or a stacked per-component /
per-spin tensor (`ndim == 3 > 2`). -/
inductive VxcTensor (n : ℕ) where
  | single (m : Matrix (Fin n) (Fin n) ℚ)
  | stacked (k : ℕ) (t : Fin k → Matrix (Fin n) (Fin n) ℚ)

/-- Transpose of the last two axes, the comparison used by the
symmetry invariant `vxc == transpose(vxc)`. -/
def VxcTensor.transposeLast {n : ℕ} : VxcTensor n → VxcTensor n
  | .single m => .single (Matrix.transpose m)
  | .stacked k t => .stacked k (fun x => Matrix.transpose (t x))

/-- `np.einsum('ij,xjk,kl->xil', L, v, M)`, written with its defining
double sum over the contracted indices `j`, `k`. -/
def einsum_ij_xjk_kl {k n : ℕ} (L : Matrix (Fin n) (Fin n) ℚ)
    (v : Fin k → Matrix (Fin n) (Fin n) ℚ) (M : Matrix (Fin n) (Fin n) ℚ) :
    Fin k → Matrix (Fin n) (Fin n) ℚ :=
  fun x => Matrix.of fun i l => ∑ j, ∑ kk, L i j * v x j kk * M kk l

/-- The symmetrization step of the rks.py patch:
`if vxcG.ndim > 2: vxcG = np.einsum('ij,xjk,kl->xil', L, vxcG, L.T)`
`else: vxcG = np.matmul(L, np.matmul(vxcG, L.T))`. -/
def restoreSym {n : ℕ} (L : Matrix (Fin n) (Fin n) ℚ) :
    VxcTensor n → VxcTensor n
  | .single m => .single (L * (m * (Matrix.transpose L)))
  | .stacked k t => .stacked k (einsum_ij_xjk_kl L t (Matrix.transpose L))

/-- The solver context fields the patch reads: the network's energy
functional evaluated with its gradient in one pass
(`jax.value_and_grad(ks.network_eval)`), and the verbosity flag. -/
structure SCFContext (n : ℕ) where
  networkValue : Matrix (Fin n) (Fin n) ℚ → FVal
  networkGrad : Matrix (Fin n) (Fin n) ℚ → VxcTensor n
  verbose : Bool

/-- The effective-potential object `vxc` written by `get_veff`: its
`exc` and `vxc` fields, and representative further fields (`ecoul`,
`vj`) that the patch never touches. -/
structure VeffObj (n : ℕ) where
  exc : FVal
  vxc : VxcTensor n
  ecoul : FVal
  vj : Matrix (Fin n) (Fin n) ℚ

/-- Result of the patched `get_veff` region: the electron-count
diagnostic `n` from the primary evaluation, the effective-potential
object, and the list of density matrices the network was invoked on
(the fallback's call trace). -/
structure GetVeffOut (n : ℕ) where
  nElec : FVal
  obj : VeffObj n
  networkCalls : List (Matrix (Fin n) (Fin n) ℚ)

/-- Embedding of the patched region of `get_veff` (rks.py):
`n, vxc.exc, vxc.vxc = ni.nr_rks(...)`, then
`if np.isnan(vxc.exc):` evaluate the network with gradient,
build `L = np.eye(dm.shape[-1])`, apply the symmetrization branch on
`ndim`, and overwrite `vxc.vxc` and `vxc.exc`.  The primary evaluator
`nr_rks` is abstracted as a function of the density matrix returning
`(n, exc, vxc)`. -/
def get_veff {n : ℕ} (ctx : SCFContext n)
    (nr_rks : Matrix (Fin n) (Fin n) ℚ → FVal × FVal × VxcTensor n)
    (dm : Matrix (Fin n) (Fin n) ℚ) (obj0 : VeffObj n) : GetVeffOut n :=
  let p := nr_rks dm
  let obj1 : VeffObj n := { obj0 with exc := p.2.1, vxc := p.2.2 }
  if (p.2.1.isnan) = true then
    let excG := ctx.networkValue dm
    let vxcG := ctx.networkGrad dm
    let L : Matrix (Fin n) (Fin n) ℚ := 1
    let vxcG' := restoreSym L vxcG
    { nElec := p.1
    , obj := { obj1 with vxc := vxcG', exc := excG }
    , networkCalls := [dm] }
  else
    { nElec := p.1, obj := obj1, networkCalls := [] }

/-- Density-approximation levels of the three patched branches. -/
inductive XCLevel where
  | lda
  | gga
  | mgga
deriving DecidableEq

/-- The full return tuple of the classical library's `eval_xc`
(pyscf returns `(exc, vxc, fxc, kxc)`); the patch keeps only the first
two slots via `[:2]`.  `exc` is the per-point energy density, `vxc` the
list of potential-derivative components (`vrho`, then `vsigma`,
`vlapl`, `vtau` as available), `fxc`/`kxc` are higher derivatives. -/
structure XCRet where
  exc : List ℚ
  vxc : List (List ℚ)
  fxc : List (List ℚ)
  kxc : List (List ℚ)
deriving DecidableEq

/-- `exc, vxc = (...)[:2]`: the first two return slots, the rest
discarded. -/
def firstTwo (r : XCRet) : List ℚ × List (List ℚ) := (r.exc, r.vxc)

/-- The configured evaluator, callable through two interfaces: the
extended one, which additionally receives the raw orbital values `ao`,
the integration `weight`s and the grid `coords`, and the minimal one
(density alone).  Either call may fail with an exception of an
arbitrary type `ε` (the patch's `except:` is bare, so no structure on
`ε` may be assumed). -/
structure NIEval (ε : Type) where
  evalExt : String → List (List ℚ) → List (List ℚ) → List ℚ →
    List (ℚ × ℚ × ℚ) → Except ε XCRet
  evalMin : String → List (List ℚ) → Except ε XCRet

/-- Which evaluator interface was attempted. -/
inductive CallKind where
  | extended
  | minimal
deriving DecidableEq

/-- The try/except dispatch shared by the LDA, GGA and MGGA branches:
`try: exc, vxc = ni.eval_xc(xc_code, rho, ao, weight, coords, ...)[:2]`
`except: exc, vxc = ni.eval_xc(xc_code, rho, ...)[:2]`.
Returns the result of whichever call decides the outcome together with
the trace of attempted calls. -/
def tryEvalXC {ε : Type} (ni : NIEval ε) (xc_code : String)
    (rho ao : List (List ℚ)) (weight : List ℚ)
    (coords : List (ℚ × ℚ × ℚ)) :
    Except ε (List ℚ × List (List ℚ)) × List CallKind :=
  match ni.evalExt xc_code rho ao weight coords with
  | .ok r => (.ok (firstTwo r), [.extended])
  | .error _ =>
      match ni.evalMin xc_code rho with
      | .ok r => (.ok (firstTwo r), [.extended, .minimal])
      | .error e => (.error e, [.extended, .minimal])

/-- `vrho = vxc[0]` (LDA branch); `List.head?` is Python indexing made
total. -/
def ldaExtract (vxc : List (List ℚ)) : Option (List ℚ) := vxc.head?

/-- `vrho, vsigma, vlapl, vtau = vxc[:4]` (MGGA branch): defined only
when at least four components are present, as in Python unpacking. -/
def mggaExtract (vxc : List (List ℚ)) :
    Option (List ℚ × List ℚ × List ℚ × List ℚ) :=
  match vxc with
  | a :: b :: c :: d :: _ => some (a, b, c, d)
  | _ => none

/-- Modelled from the spec: the GGA branch's component extraction is
not inside the patch hunks under `src/` (only the dispatch is); §4.2
step 5 specifies that GGA extracts `vrho` and additionally `vsigma`
alone. -/
def ggaExtract (vxc : List (List ℚ)) : Option (List ℚ × List ℚ) :=
  match vxc with
  | a :: b :: _ => some (a, b)
  | _ => none

/-- Per-block outcome of one branch: the unpacked `(exc, vxc)` pair (or
the fatal error) and the trace of evaluator calls. -/
def branchDispatch {ε : Type} (lvl : XCLevel) (ni : NIEval ε)
    (xc_code : String) (rho ao : List (List ℚ)) (weight : List ℚ)
    (coords : List (ℚ × ℚ × ℚ)) :
    Except ε (List ℚ × List (List ℚ)) × List CallKind :=
  match lvl with
  | .lda => tryEvalXC ni xc_code rho ao weight coords
  | .gga => tryEvalXC ni xc_code rho ao weight coords
  | .mgga => tryEvalXC ni xc_code rho ao weight coords

/-- One quadrature point as the accumulation step sees it: the density
value `rho[0]` at the point (for the current density set), the
integration weight, and the energy density `exc` returned by the
evaluator at the point. -/
structure GridPt where
  rho0 : ℚ
  weight : ℚ
  exc : ℚ
deriving DecidableEq

/-- `den = rho[0] * weight` at one point. -/
def ptDen (p : GridPt) : ℚ := p.rho0 * p.weight

/-- One block's contribution to `nelec[idm]`: `den.sum()`. -/
def blockNelec (b : List GridPt) : ℚ := (b.map ptDen).sum

/-- One block's contribution to `excsum[idm]`: `np.dot(den, exc)`. -/
def blockExcsum (b : List GridPt) : ℚ :=
  (b.map (fun p => ptDen p * p.exc)).sum

/-- The two per-density-set accumulators of the block loop. -/
structure NIAccum (nset : ℕ) where
  nelec : Fin nset → ℚ
  excsum : Fin nset → ℚ

/-- Modelled from the spec: the accumulators are created zeroed at the
start of the evaluator call (§3 lifecycle); the zero initialisation
itself is host code outside the patch hunks. -/
def initAccum (nset : ℕ) : NIAccum nset :=
  { nelec := fun _ => 0, excsum := fun _ => 0 }

/-- One grid block of the loop: for each density-set index `idm` the
points with their data (`rho = make_rho(idm, ...)` depends on `idm`). -/
def NIBlock (nset : ℕ) : Type := Fin nset → List GridPt

/-- The accumulation of one block:
`for idm in range(nset): nelec[idm] += ...; excsum[idm] += ...`. -/
def stepBlock {nset : ℕ} (acc : NIAccum nset) (b : NIBlock nset) :
    NIAccum nset :=
  { nelec := fun idm => acc.nelec idm + blockNelec (b idm)
  , excsum := fun idm => acc.excsum idm + blockExcsum (b idm) }

/-- The whole block loop: fold the per-block accumulation over the
blocks in order, starting from zeroed accumulators. -/
def runBlocks {nset : ℕ} (blocks : List (NIBlock nset)) : NIAccum nset :=
  blocks.foldl stepBlock (initAccum nset)

/-- The grid a block partition covers, for one density set: the
concatenation of the blocks' point lists. -/
def flatGrid {nset : ℕ} (blocks : List (NIBlock nset)) (idm : Fin nset) :
    List GridPt :=
  (blocks.map (fun b => b idm)).flatten

/-- Forward-mode dual number: a primal value together with its tangent
(the derivative of the value with respect to the differentiation
variable, e.g. an entry of the input density matrix).  This is the
observable semantics of jax tracing through the accumulation lines. -/
structure Dual where
  val : ℚ
  tan : ℚ
deriving DecidableEq

/-- Dual addition: tangents add (linearity of differentiation). -/
def Dual.add (a b : Dual) : Dual := ⟨a.val + b.val, a.tan + b.tan⟩

/-- Dual multiplication: the product rule. -/
def Dual.mul (a b : Dual) : Dual :=
  ⟨a.val * b.val, a.val * b.tan + a.tan * b.val⟩

/-- `stop_grad`: the value passes through, the tangent is severed. -/
def stop_grad (a : Dual) : Dual := ⟨a.val, 0⟩

/-- `.sum()` of a dual-valued array. -/
def dsum (l : List Dual) : Dual := l.foldr Dual.add ⟨0, 0⟩

/-- `np.dot` of two dual-valued arrays. -/
def ddot (a b : List Dual) : Dual := dsum (List.zipWith Dual.mul a b)

/-- `den = rho[0] * weight`, elementwise on dual values. -/
def denDual (rho0 weight : List Dual) : List Dual :=
  List.zipWith Dual.mul rho0 weight

/-- `nelec[idm] += stop_grad(den).sum()`, the patch's electron-count
update on one block. -/
def nelecUpdate (acc : Dual) (den : List Dual) : Dual :=
  Dual.add acc (dsum (den.map stop_grad))

/-- `excsum[idm] += np.dot(den, exc)`, the patch's energy update on one
block: no `stop_grad` anywhere. -/
def excsumUpdate (acc : Dual) (den exc : List Dual) : Dual :=
  Dual.add acc (ddot den exc)

/-- The values of a dual list. -/
def dvals (l : List Dual) : List ℚ := l.map Dual.val

/-- The forward derivative of `dot(den, exc)` by the product rule. -/
def dotTangent (den exc : List Dual) : ℚ :=
  (List.zipWith (fun a b => a.val * b.tan + a.tan * b.val) den exc).sum

/-- Two evaluator outcomes that agree on the first two return slots
(and on the error if any); extra slots `fxc`, `kxc` are unconstrained. -/
def agreeFirstTwo {ε : Type} : Except ε XCRet → Except ε XCRet → Prop
  | .ok r, .ok s => r.exc = s.exc ∧ r.vxc = s.vxc
  | .error e, .error e' => e = e'
  | _, _ => False

/-- A 1×1 density matrix used for concrete instantiations. -/
def dmOne : Matrix (Fin 1) (Fin 1) ℚ := 1

/-- A trivial solver context whose network returns a finite energy and
a zero gradient. -/
def ctxTrivial : SCFContext 1 :=
  ⟨fun _ => FVal.finite 7, fun _ => VxcTensor.single 0, false⟩

/-- A trivial initial effective-potential object. -/
def objTrivial : VeffObj 1 :=
  ⟨FVal.finite 0, VxcTensor.single 0, FVal.finite 0, 0⟩

/-- A primary evaluator whose energy is `+∞`: not a finite number, yet
not NaN. -/
def nrRksInf : Matrix (Fin 1) (Fin 1) ℚ → FVal × FVal × VxcTensor 1 :=
  fun _ => (FVal.finite 2, FVal.inf, VxcTensor.single 0)

/-- A primary evaluator whose energy is NaN. -/
def nrRksNan : Matrix (Fin 1) (Fin 1) ℚ → FVal × FVal × VxcTensor 1 :=
  fun _ => (FVal.finite 2, FVal.nan, VxcTensor.single 0)

/-- An asymmetric raw network gradient: the gradient of a scalar
function of an (unsymmetrized) matrix argument need not be symmetric. -/
def gradAsym : Matrix (Fin 2) (Fin 2) ℚ := Matrix.of ![![0, 1], ![0, 0]]

/-- A solver context whose network gradient at every density matrix is
the asymmetric `gradAsym`. -/
def ctxAsym : SCFContext 2 :=
  ⟨fun _ => FVal.finite 5, fun _ => VxcTensor.single gradAsym, false⟩

/-- A 2×2 primary evaluator whose energy is NaN. -/
def nrRksNan2 : Matrix (Fin 2) (Fin 2) ℚ → FVal × FVal × VxcTensor 2 :=
  fun _ => (FVal.finite 2, FVal.nan, VxcTensor.single 0)

/-- A trivial 2×2 initial effective-potential object. -/
def objTrivial2 : VeffObj 2 :=
  ⟨FVal.finite 0, VxcTensor.single 0, FVal.finite 0, 0⟩

/-- A concrete evaluator whose extended interface always raises and
whose minimal interface succeeds. -/
def niMinOnly : NIEval Unit :=
  ⟨fun _ _ _ _ _ => .error (), fun _ _ => .ok ⟨[1], [[2]], [], []⟩⟩

/-- A concrete evaluator failing on both interfaces, with
distinguishable error values. -/
def niFailBoth : NIEval ℕ :=
  ⟨fun _ _ _ _ _ => .error 3, fun _ _ => .error 7⟩

/-- A concrete evaluator succeeding on the extended interface, with
a nonempty third return slot. -/
def niExtraSlotsA : NIEval Unit :=
  ⟨fun _ _ _ _ _ => .ok ⟨[1], [[2]], [[3]], []⟩, fun _ _ => .error ()⟩

/-- Like `niExtraSlotsA` but with a different fourth return slot. -/
def niExtraSlotsB : NIEval Unit :=
  ⟨fun _ _ _ _ _ => .ok ⟨[1], [[2]], [], [[4]]⟩, fun _ _ => .error ()⟩

/-- A concrete two-point block for a single density set. -/
def blockTwoPts : NIBlock 1 := fun _ => [⟨1, 2, 3⟩, ⟨2, 1, 4⟩]

/-- The first point of `blockTwoPts` as its own block. -/
def blockFirstPt : NIBlock 1 := fun _ => [⟨1, 2, 3⟩]

/-- The second point of `blockTwoPts` as its own block. -/
def blockSecondPt : NIBlock 1 := fun _ => [⟨2, 1, 4⟩]

/-- The einsum `'ij,xjk,kl->xil'` with matrices `L`, `v`, `(Matrix.transpose L)` is the
two-sided matrix transform `L * v x * (Matrix.transpose L)` applied independently for
each leading index `x`. -/
theorem einsum_eq_two_sided {k n : ℕ} (L : Matrix (Fin n) (Fin n) ℚ)
    (v : Fin k → Matrix (Fin n) (Fin n) ℚ) (x : Fin k) :
    einsum_ij_xjk_kl L v (Matrix.transpose L) x = L * v x * (Matrix.transpose L) := by
  ext i l
  simp only [einsum_ij_xjk_kl, Matrix.of_apply, Matrix.mul_apply,
    Finset.sum_mul, Finset.mul_sum]
  rw [Finset.sum_comm]

/-- With `L = 1` both symmetrization branches are the identity map. -/
theorem restoreSym_one {n : ℕ} (v : VxcTensor n) :
    restoreSym (1 : Matrix (Fin n) (Fin n) ℚ) v = v := by
  cases v with
  | single m => simp [restoreSym, Matrix.transpose_one]
  | stacked k t =>
      simp only [restoreSym]
      congr 1
      funext x
      rw [einsum_eq_two_sided, Matrix.transpose_one, Matrix.one_mul,
        Matrix.mul_one]

/-- A non-empty partition flattens to the head block followed by the
rest of the grid. -/
theorem flatGrid_cons {nset : ℕ} (hd : NIBlock nset)
    (tl : List (NIBlock nset)) (idm : Fin nset) :
    flatGrid (hd :: tl) idm = hd idm ++ flatGrid tl idm := by
  simp [flatGrid]

/-- `blockNelec` is additive under concatenation of point lists. -/
theorem blockNelec_append (a b : List GridPt) :
    blockNelec (a ++ b) = blockNelec a + blockNelec b := by
  simp [blockNelec]

/-- `blockExcsum` is additive under concatenation of point lists. -/
theorem blockExcsum_append (a b : List GridPt) :
    blockExcsum (a ++ b) = blockExcsum a + blockExcsum b := by
  simp [blockExcsum]

/-- Folding the block accumulation from an arbitrary start adds the
per-block totals once each. -/
theorem runBlocks_from {nset : ℕ} (blocks : List (NIBlock nset))
    (acc : NIAccum nset) (idm : Fin nset) :
    (blocks.foldl stepBlock acc).nelec idm
        = acc.nelec idm + ((blocks.map (fun b => blockNelec (b idm))).sum)
      ∧ (blocks.foldl stepBlock acc).excsum idm
        = acc.excsum idm
            + ((blocks.map (fun b => blockExcsum (b idm))).sum) := by
  induction blocks generalizing acc with
  | nil => simp
  | cons hd tl ih =>
      simp only [List.foldl_cons, List.map_cons, List.sum_cons]
      obtain ⟨h1, h2⟩ := ih (stepBlock acc hd)
      constructor
      · rw [h1]; simp [stepBlock]; ring
      · rw [h2]; simp [stepBlock]; ring

/-- The per-block totals sum to the totals over the flattened grid. -/
theorem block_sums_eq_flat {nset : ℕ} (blocks : List (NIBlock nset))
    (idm : Fin nset) :
    ((blocks.map (fun b => blockNelec (b idm))).sum
        = blockNelec (flatGrid blocks idm))
      ∧ ((blocks.map (fun b => blockExcsum (b idm))).sum
        = blockExcsum (flatGrid blocks idm)) := by
  induction blocks with
  | nil => simp [flatGrid, blockNelec, blockExcsum]
  | cons hd tl ih =>
      rw [List.map_cons, List.map_cons, List.sum_cons, List.sum_cons,
        flatGrid_cons, blockNelec_append, blockExcsum_append, ih.1, ih.2]
      exact ⟨rfl, rfl⟩

/-- Summing after `stop_grad` leaves a zero tangent. -/
theorem dsum_stop_grad_tan (l : List Dual) :
    (dsum (l.map stop_grad)).tan = 0 := by
  induction l with
  | nil => rfl
  | cons hd tl ih => simp [dsum, Dual.add, stop_grad, List.foldr] at ih ⊢; simp [ih]

/-- Summing after `stop_grad` keeps the primal sum of values. -/
theorem dsum_stop_grad_val (l : List Dual) :
    (dsum (l.map stop_grad)).val = (dvals l).sum := by
  induction l with
  | nil => rfl
  | cons hd tl ih =>
      simp [dsum, Dual.add, stop_grad, dvals, List.foldr] at ih ⊢
      simp [ih, dvals]

/-- The tangent of a dual dot product is given by the product rule. -/
theorem ddot_tan (a b : List Dual) : (ddot a b).tan = dotTangent a b := by
  induction a generalizing b with
  | nil => cases b <;> rfl
  | cons hd tl ih =>
      cases b with
      | nil => rfl
      | cons hd' tl' =>
          simp [ddot, dsum, dotTangent, Dual.add, Dual.mul,
            List.zipWith] at ih ⊢
          have := ih tl'
          simp [ddot, dsum, dotTangent] at this
          simp [this]

/-- The value of a dual dot product is the dot product of the values. -/
theorem ddot_val (a b : List Dual) :
    (ddot a b).val = (List.zipWith (fun x y => x * y) (dvals a) (dvals b)).sum := by
  induction a generalizing b with
  | nil => cases b <;> rfl
  | cons hd tl ih =>
      cases b with
      | nil => rfl
      | cons hd' tl' =>
          simp [ddot, dsum, dvals, Dual.add, Dual.mul, List.zipWith] at ih ⊢
          have := ih tl'
          simp [ddot, dsum, dvals] at this
          simp [this]

/-- C3: For every grid block, density set and approximation level, the
dispatcher first attempts the extended evaluator call; if it succeeds
the minimal evaluator is never invoked; if it fails the minimal call is
invoked exactly once and its result is used unmodified; a failure of
the minimal call propagates to the caller; and no attempts beyond
these two are made. -/
theorem c3_dispatch_state_machine {ε : Type} (lvl : XCLevel)
    (ni : NIEval ε) (xc_code : String) (rho ao : List (List ℚ))
    (weight : List ℚ) (coords : List (ℚ × ℚ × ℚ)) :
    (branchDispatch lvl ni xc_code rho ao weight coords
        = tryEvalXC ni xc_code rho ao weight coords)
    ∧ (∀ r, ni.evalExt xc_code rho ao weight coords = .ok r →
        tryEvalXC ni xc_code rho ao weight coords
          = (.ok (firstTwo r), [.extended])
        ∧ CallKind.minimal ∉ (tryEvalXC ni xc_code rho ao weight coords).2)
    ∧ (∀ e, ni.evalExt xc_code rho ao weight coords = .error e →
        (tryEvalXC ni xc_code rho ao weight coords).2
          = [.extended, .minimal]
        ∧ (∀ r, ni.evalMin xc_code rho = .ok r →
            (tryEvalXC ni xc_code rho ao weight coords).1
              = .ok (firstTwo r))
        ∧ (∀ e', ni.evalMin xc_code rho = .error e' →
            (tryEvalXC ni xc_code rho ao weight coords).1 = .error e'))
    ∧ (tryEvalXC ni xc_code rho ao weight coords).2.length ≤ 2 := by
  refine ⟨by cases lvl <;> rfl, ?_, ?_, ?_⟩
  · intro r hr
    simp [tryEvalXC, hr]
  · intro e he
    refine ⟨?_, ?_, ?_⟩
    · cases hmin : ni.evalMin xc_code rho <;> simp [tryEvalXC, he, hmin]
    · intro r hr; simp [tryEvalXC, he, hr]
    · intro e' he'; simp [tryEvalXC, he, he']
  · cases hext : ni.evalExt xc_code rho ao weight coords with
    | ok r => simp [tryEvalXC, hext]
    | error e =>
        cases hmin : ni.evalMin xc_code rho <;> simp [tryEvalXC, hext, hmin]

/-- Witness for C3 at a concrete evaluator whose extended interface
fails and whose minimal interface succeeds. -/
theorem c3_dispatch_state_machine_witness :
    (tryEvalXC niMinOnly "lda" [[1]] [[1]] [1] [(0, 0, 0)]).1
      = .ok ([1], [[2]]) := by
  have h := (c3_dispatch_state_machine XCLevel.lda niMinOnly
      "lda" [[1]] [[1]] [1] [(0, 0, 0)]).2.2.1 () rfl
  exact h.2.1 ⟨[1], [[2]], [], []⟩ rfl

/-- C8: The dispatcher's fallback handler catches every exception of
every type raised by the extended call: for any error value whatsoever
the minimal call decides the outcome, and an error surfacing from the
dispatcher can only be the minimal call's, never the extended call's. -/
theorem c8_bare_except_catches_all {ε : Type} (ni : NIEval ε)
    (xc_code : String) (rho ao : List (List ℚ)) (weight : List ℚ)
    (coords : List (ℚ × ℚ × ℚ)) :
    (∀ e : ε, ni.evalExt xc_code rho ao weight coords = .error e →
        (tryEvalXC ni xc_code rho ao weight coords).1
          = (match ni.evalMin xc_code rho with
             | .ok r => .ok (firstTwo r)
             | .error e' => .error e'))
    ∧ (∀ e' : ε, (tryEvalXC ni xc_code rho ao weight coords).1 = .error e' →
        ni.evalMin xc_code rho = .error e') := by
  constructor
  · intro e he
    cases hmin : ni.evalMin xc_code rho <;> simp [tryEvalXC, he, hmin]
  · intro e' he'
    cases hext : ni.evalExt xc_code rho ao weight coords with
    | ok r => simp [tryEvalXC, hext] at he'
    | error e =>
        cases hmin : ni.evalMin xc_code rho with
        | ok r => simp [tryEvalXC, hext, hmin] at he'
        | error e2 =>
            simp [tryEvalXC, hext, hmin] at he'
            simp [hmin, he']

/-- Witness for C8 at a concrete evaluator failing on both interfaces
with a distinguished error value. -/
theorem c8_bare_except_catches_all_witness :
    ((tryEvalXC niFailBoth "gga" [] [] [] []).1 = .error 7)
      ∧ (((tryEvalXC niFailBoth "gga" [] [] [] []).1 = Except.error 7) →
        (niFailBoth.evalMin "gga" [] = .error 7)) := by
  constructor
  · exact (c8_bare_except_catches_all niFailBoth "gga" [] [] [] []).1 3 rfl
  · intro h
    exact (c8_bare_except_catches_all niFailBoth "gga" [] [] [] []).2 7 h

/-- C7: Only the first two return slots of whichever call succeeded
are used (two evaluators differing only in the extra slots yield the
same dispatch outcome); `vrho` is extracted as `vxc[0]` in every
branch, and the MGGA branch extracts `vrho, vsigma, vlapl, vtau` as
the first four components of `vxc`. -/
theorem c7_first_two_slots {ε : Type} (ni ni' : NIEval ε)
    (xc_code : String) (rho ao : List (List ℚ)) (weight : List ℚ)
    (coords : List (ℚ × ℚ × ℚ)) (v : List (List ℚ))
    (vrho vsigma vlapl vtau : List ℚ) (rest : List (List ℚ)) :
    (agreeFirstTwo (ni.evalExt xc_code rho ao weight coords)
        (ni'.evalExt xc_code rho ao weight coords) →
      agreeFirstTwo (ni.evalMin xc_code rho) (ni'.evalMin xc_code rho) →
      tryEvalXC ni xc_code rho ao weight coords
        = tryEvalXC ni' xc_code rho ao weight coords)
    ∧ (ldaExtract v = v.head?)
    ∧ (v = vrho :: vsigma :: rest → ggaExtract v = some (vrho, vsigma)
        ∧ some vrho = v.head?)
    ∧ (v = vrho :: vsigma :: vlapl :: vtau :: rest →
        mggaExtract v = some (vrho, vsigma, vlapl, vtau)
        ∧ some vrho = v.head?) := by
  refine ⟨?_, rfl, ?_, ?_⟩
  · intro hext hmin
    cases h1 : ni.evalExt xc_code rho ao weight coords with
    | ok r =>
        cases h1' : ni'.evalExt xc_code rho ao weight coords with
        | ok s =>
            rw [h1, h1'] at hext
            obtain ⟨ha, hb⟩ := hext
            simp [tryEvalXC, h1, h1', firstTwo, ha, hb]
        | error e => rw [h1, h1'] at hext; exact absurd hext (by simp [agreeFirstTwo])
    | error e =>
        cases h1' : ni'.evalExt xc_code rho ao weight coords with
        | ok s => rw [h1, h1'] at hext; exact absurd hext (by simp [agreeFirstTwo])
        | error e' =>
            cases h2 : ni.evalMin xc_code rho with
            | ok r =>
                cases h2' : ni'.evalMin xc_code rho with
                | ok s =>
                    rw [h2, h2'] at hmin
                    obtain ⟨ha, hb⟩ := hmin
                    simp [tryEvalXC, h1, h1', h2, h2', firstTwo, ha, hb]
                | error f =>
                    rw [h2, h2'] at hmin
                    exact absurd hmin (by simp [agreeFirstTwo])
            | error f =>
                cases h2' : ni'.evalMin xc_code rho with
                | ok s =>
                    rw [h2, h2'] at hmin
                    exact absurd hmin (by simp [agreeFirstTwo])
                | error f' =>
                    rw [h2, h2'] at hmin
                    simp only [agreeFirstTwo] at hmin
                    simp [tryEvalXC, h1, h1', h2, h2', hmin]
  · rintro rfl
    exact ⟨rfl, rfl⟩
  · rintro rfl
    exact ⟨rfl, rfl⟩

/-- Witness for C7 at two concrete evaluators differing only in the
third and fourth return slots, and a concrete four-component `vxc`. -/
theorem c7_first_two_slots_witness :
    (tryEvalXC niExtraSlotsA "mgga" [] [] [] []
      = tryEvalXC niExtraSlotsB "mgga" [] [] [] [])
    ∧ mggaExtract [[1], [2], [3], [4]] = some ([1], [2], [3], [4]) := by
  have h := c7_first_two_slots niExtraSlotsA niExtraSlotsB
    "mgga" [] [] [] [] [[1], [2], [3], [4]] [1] [2] [3] [4] []
  exact ⟨h.1 (by exact ⟨rfl, rfl⟩) rfl, (h.2.2.2 rfl).1⟩

/-- C4: After processing all grid blocks, `nelec[idm]` equals the sum
over all blocks of `sum(rho[0]·weight)` and `excsum[idm]` equals the
sum over all blocks of `dot(rho[0]·weight, exc)`; both equal the total
over the flattened grid, so no block is skipped or double-counted and
the totals are independent of the partition into blocks. -/
theorem c4_accumulator_invariant {nset : ℕ}
    (blocks blocks' : List (NIBlock nset)) (idm : Fin nset) :
    ((runBlocks blocks).nelec idm
        = (blocks.map (fun b => blockNelec (b idm))).sum)
    ∧ ((runBlocks blocks).excsum idm
        = (blocks.map (fun b => blockExcsum (b idm))).sum)
    ∧ ((runBlocks blocks).nelec idm = blockNelec (flatGrid blocks idm))
    ∧ ((runBlocks blocks).excsum idm = blockExcsum (flatGrid blocks idm))
    ∧ (flatGrid blocks idm = flatGrid blocks' idm →
        (runBlocks blocks).nelec idm = (runBlocks blocks').nelec idm
        ∧ (runBlocks blocks).excsum idm = (runBlocks blocks').excsum idm) := by
  have h := runBlocks_from blocks (initAccum nset) idm
  have h' := runBlocks_from blocks' (initAccum nset) idm
  have hf := block_sums_eq_flat blocks idm
  have hf' := block_sums_eq_flat blocks' idm
  have e1 : (runBlocks blocks).nelec idm
      = blockNelec (flatGrid blocks idm) := by
    rw [runBlocks, h.1, ← hf.1]; simp [initAccum]
  have e2 : (runBlocks blocks).excsum idm
      = blockExcsum (flatGrid blocks idm) := by
    rw [runBlocks, h.2, ← hf.2]; simp [initAccum]
  refine ⟨?_, ?_, e1, e2, ?_⟩
  · rw [runBlocks, h.1]; simp [initAccum]
  · rw [runBlocks, h.2]; simp [initAccum]
  · intro hflat
    have e1' : (runBlocks blocks').nelec idm
        = blockNelec (flatGrid blocks' idm) := by
      rw [runBlocks, h'.1, ← hf'.1]; simp [initAccum]
    have e2' : (runBlocks blocks').excsum idm
        = blockExcsum (flatGrid blocks' idm) := by
      rw [runBlocks, h'.2, ← hf'.2]; simp [initAccum]
    rw [e1, e2, e1', e2', hflat]
    exact ⟨rfl, rfl⟩

/-- Witness for C4: one two-point block versus the same two points
split into two blocks; the accumulated totals coincide. -/
theorem c4_accumulator_invariant_witness :
    (runBlocks [blockTwoPts]).nelec 0
        = (runBlocks [blockFirstPt, blockSecondPt]).nelec 0
      ∧ (runBlocks [blockTwoPts]).excsum 0
        = (runBlocks [blockFirstPt, blockSecondPt]).excsum 0 :=
  (c4_accumulator_invariant [blockTwoPts] [blockFirstPt, blockSecondPt]
      0).2.2.2.2
    (by simp [flatGrid, blockTwoPts, blockFirstPt, blockSecondPt])

/-- `stop_grad` followed by `.sum()` yields the primal sum with a
severed tangent. -/
theorem dsum_stop_grad (l : List Dual) :
    dsum (l.map stop_grad) = ⟨(dvals l).sum, 0⟩ := by
  have h1 := dsum_stop_grad_val l
  have h2 := dsum_stop_grad_tan l
  cases hd : dsum (l.map stop_grad)
  rw [hd] at h1 h2
  simp at h1 h2
  simp [h1, h2]

/-- C6: The electron-count update `nelec[idm] += stop_grad(den).sum()`
applies a stop-gradient to `den`, so its tangent is unchanged and its
result depends only on the values of `den`; the energy update
`excsum[idm] += np.dot(den, exc)` uses `den` and `exc` directly, so its
tangent follows the product rule and the accumulated energy remains
differentiable through `den`. -/
theorem c6_stop_grad_semantics (acc acc2 : Dual) (den den' exc : List Dual) :
    ((nelecUpdate acc den).tan = acc.tan)
    ∧ (dvals den = dvals den' → nelecUpdate acc den = nelecUpdate acc den')
    ∧ ((nelecUpdate acc den).val = acc.val + (dvals den).sum)
    ∧ ((excsumUpdate acc2 den exc).val
        = acc2.val
          + (List.zipWith (fun x y => x * y) (dvals den) (dvals exc)).sum)
    ∧ ((excsumUpdate acc2 den exc).tan = acc2.tan + dotTangent den exc) := by
  refine ⟨?_, ?_, ?_, ?_, ?_⟩
  · simp [nelecUpdate, Dual.add, dsum_stop_grad_tan]
  · intro hvals
    simp [nelecUpdate, dsum_stop_grad, hvals]
  · simp [nelecUpdate, Dual.add, dsum_stop_grad]
  · simp [excsumUpdate, Dual.add, ddot_val]
  · simp [excsumUpdate, Dual.add, ddot_tan]

/-- Witness for C6 at concrete dual lists: two `den`s with equal values
but different tangents give the same `nelec` update, while the `excsum`
tangent propagates the tangent of `den`. -/
theorem c6_stop_grad_semantics_witness :
    (dvals [⟨2, 5⟩] = dvals [⟨2, 9⟩] →
      nelecUpdate ⟨0, 0⟩ [⟨2, 5⟩] = nelecUpdate ⟨0, 0⟩ [⟨2, 9⟩])
    ∧ ((excsumUpdate ⟨0, 0⟩ [⟨2, 5⟩] [⟨3, 0⟩]).tan
        = 0 + dotTangent [⟨2, 5⟩] [⟨3, 0⟩]) := by
  have h := c6_stop_grad_semantics ⟨0, 0⟩ ⟨0, 0⟩ [⟨2, 5⟩] [⟨2, 9⟩] [⟨3, 0⟩]
  exact ⟨h.2.1, h.2.2.2.2⟩

/-- C2 counterexample: with a primary energy of `+∞` — not a finite
number — the fallback is *not* invoked, because the code tests
`np.isnan`, not finiteness; so "triggers exactly when exc is not a
finite number" fails at this input. -/
theorem c2_counterexample_inf :
    ¬ (((get_veff ctxTrivial nrRksInf dmOne objTrivial).networkCalls.length
          ≠ 0)
        ↔ FVal.isFinite (nrRksInf dmOne).2.1 = false) := by
  intro h
  have hlen : (get_veff ctxTrivial nrRksInf dmOne
      objTrivial).networkCalls.length = 0 := by
    simp [get_veff, nrRksInf, FVal.isnan]
  exact (hlen ▸ h.mpr (by simp [nrRksInf, FVal.isFinite])) rfl

/-- C2 (amended): the fallback is triggered exactly when the primary
scalar energy is NaN; the trigger depends only on that scalar (two
primaries agreeing on `exc` trigger identically, whatever their
potentials); and whenever the primary energy is finite the output is
the classical `(exc, vxc)` unmodified with no network call. -/
theorem c2_nan_trigger {n : ℕ} (ctx : SCFContext n)
    (nr_rks nr_rks2 : Matrix (Fin n) (Fin n) ℚ → FVal × FVal × VxcTensor n)
    (dm : Matrix (Fin n) (Fin n) ℚ) (obj0 : VeffObj n) :
    (((get_veff ctx nr_rks dm obj0).networkCalls ≠ [])
        ↔ (nr_rks dm).2.1.isnan = true)
    ∧ ((nr_rks dm).2.1.isFinite = true →
        (get_veff ctx nr_rks dm obj0).obj.exc = (nr_rks dm).2.1
        ∧ (get_veff ctx nr_rks dm obj0).obj.vxc = (nr_rks dm).2.2
        ∧ (get_veff ctx nr_rks dm obj0).networkCalls = [])
    ∧ ((nr_rks2 dm).2.1 = (nr_rks dm).2.1 →
        (get_veff ctx nr_rks2 dm obj0).networkCalls.length
          = (get_veff ctx nr_rks dm obj0).networkCalls.length) := by
  refine ⟨?_, ?_, ?_⟩
  · by_cases h : (nr_rks dm).2.1.isnan = true <;> simp [get_veff, h]
  · intro hfin
    have hnan : (nr_rks dm).2.1.isnan = false := by
      cases hv : (nr_rks dm).2.1
      case finite => simp [FVal.isnan]
      all_goals simp [hv, FVal.isFinite] at hfin
    simp [get_veff, hnan]
  · intro hagree
    by_cases h : (nr_rks dm).2.1.isnan = true <;>
      simp [get_veff, h, hagree]

/-- Witness for C2 (amended) at a NaN-producing and at a
finite-producing primary evaluator. -/
theorem c2_nan_trigger_witness :
    ((get_veff ctxTrivial nrRksNan dmOne objTrivial).networkCalls ≠ [])
    ∧ ((get_veff ctxTrivial nrRksInf dmOne objTrivial).networkCalls.length
        = (get_veff ctxTrivial nrRksInf dmOne objTrivial).networkCalls.length) := by
  constructor
  · exact (c2_nan_trigger ctxTrivial nrRksNan nrRksNan dmOne
      objTrivial).1.mpr rfl
  · exact (c2_nan_trigger ctxTrivial nrRksInf nrRksInf dmOne
      objTrivial).2.2 rfl

/-- C10: the fallback overwrites only the `exc` and `vxc` fields: the
electron-count diagnostic `n` from the primary evaluation and the
other fields of the effective-potential object (`ecoul`, `vj`) are
unchanged in every case, and when the primary energy is not NaN the
object is exactly the post-primary object, nothing further modified. -/
theorem c10_fallback_frame {n : ℕ} (ctx : SCFContext n)
    (nr_rks : Matrix (Fin n) (Fin n) ℚ → FVal × FVal × VxcTensor n)
    (dm : Matrix (Fin n) (Fin n) ℚ) (obj0 : VeffObj n) :
    ((get_veff ctx nr_rks dm obj0).obj.ecoul = obj0.ecoul)
    ∧ ((get_veff ctx nr_rks dm obj0).obj.vj = obj0.vj)
    ∧ ((get_veff ctx nr_rks dm obj0).nElec = (nr_rks dm).1)
    ∧ ((nr_rks dm).2.1.isnan = false →
        (get_veff ctx nr_rks dm obj0).obj
          = { obj0 with exc := (nr_rks dm).2.1, vxc := (nr_rks dm).2.2 }) := by
  by_cases h : (nr_rks dm).2.1.isnan = true
  · refine ⟨?_, ?_, ?_, ?_⟩ <;> simp [get_veff, h]
  · simp only [Bool.not_eq_true] at h
    refine ⟨?_, ?_, ?_, ?_⟩ <;> simp [get_veff, h]

/-- Witness for C10 at the NaN-producing primary evaluator (frame
part) and the finite one (no-modification part). -/
theorem c10_fallback_frame_witness :
    ((get_veff ctxTrivial nrRksNan dmOne objTrivial).obj.ecoul
        = objTrivial.ecoul)
    ∧ ((get_veff ctxTrivial nrRksInf dmOne objTrivial).obj
        = { objTrivial with exc := (nrRksInf dmOne).2.1
                          , vxc := (nrRksInf dmOne).2.2 }) := by
  constructor
  · exact (c10_fallback_frame ctxTrivial nrRksNan dmOne objTrivial).1
  · exact (c10_fallback_frame ctxTrivial nrRksInf dmOne
      objTrivial).2.2.2 rfl

/-- C5: when the fallback runs, the transform `L` is the identity
matrix of size `dm.shape[-1]`; a 2-dimensional raw gradient is
returned as `L · vxc_raw · Lᵀ`, and a stacked raw gradient gets the
same two-sided transform applied independently for each leading
index. -/
theorem c5_identity_two_sided_transform {n : ℕ} (ctx : SCFContext n)
    (nr_rks : Matrix (Fin n) (Fin n) ℚ → FVal × FVal × VxcTensor n)
    (dm : Matrix (Fin n) (Fin n) ℚ) (obj0 : VeffObj n)
    (h : (nr_rks dm).2.1.isnan = true) :
    (get_veff ctx nr_rks dm obj0).obj.vxc
      = match ctx.networkGrad dm with
        | .single m => .single ((1 : Matrix (Fin n) (Fin n) ℚ) * m
            * Matrix.transpose (1 : Matrix (Fin n) (Fin n) ℚ))
        | .stacked k t => .stacked k (fun x =>
            (1 : Matrix (Fin n) (Fin n) ℚ) * t x
              * Matrix.transpose (1 : Matrix (Fin n) (Fin n) ℚ)) := by
  have hout : (get_veff ctx nr_rks dm obj0).obj.vxc
      = restoreSym 1 (ctx.networkGrad dm) := by
    simp [get_veff, h]
  rw [hout]
  cases hg : ctx.networkGrad dm with
  | single m => simp [restoreSym, Matrix.mul_assoc]
  | stacked k t =>
      simp only [restoreSym]
      congr 1
      funext x
      rw [einsum_eq_two_sided]

/-- Witness for C5 at the NaN-producing primary evaluator and the
trivial network with a single-matrix zero gradient. -/
theorem c5_identity_two_sided_transform_witness :
    (get_veff ctxTrivial nrRksNan dmOne objTrivial).obj.vxc
      = VxcTensor.single ((1 : Matrix (Fin 1) (Fin 1) ℚ) * 0
          * Matrix.transpose (1 : Matrix (Fin 1) (Fin 1) ℚ)) := by
  have h := c5_identity_two_sided_transform ctxTrivial nrRksNan dmOne
    objTrivial rfl
  simpa [ctxTrivial] using h

/-- C9: because `L` is constructed as the identity matrix, the
symmetrization is the identity map on every raw gradient (single or
stacked), and the fallback's returned potential is the network's raw
gradient at the density matrix, unchanged. -/
theorem c9_symmetrization_is_identity {n : ℕ} (ctx : SCFContext n)
    (nr_rks : Matrix (Fin n) (Fin n) ℚ → FVal × FVal × VxcTensor n)
    (dm : Matrix (Fin n) (Fin n) ℚ) (obj0 : VeffObj n) :
    (∀ v : VxcTensor n, restoreSym (1 : Matrix (Fin n) (Fin n) ℚ) v = v)
    ∧ ((nr_rks dm).2.1.isnan = true →
        (get_veff ctx nr_rks dm obj0).obj.vxc = ctx.networkGrad dm) := by
  refine ⟨restoreSym_one, fun h => ?_⟩
  simp [get_veff, h, restoreSym_one]

/-- Witness for C9 at the NaN-producing primary evaluator. -/
theorem c9_symmetrization_is_identity_witness :
    (get_veff ctxTrivial nrRksNan dmOne objTrivial).obj.vxc
      = ctxTrivial.networkGrad dmOne :=
  (c9_symmetrization_is_identity ctxTrivial nrRksNan dmOne objTrivial).2 rfl

/-- C1: at a density matrix whose classical energy is NaN, the network
fallback is invoked exactly once — but the returned `vxc` is *not*
symmetric under transpose: `L = np.eye(...)` makes the "restore
symmetry" transform a no-op, so an asymmetric raw gradient passes
through unchanged, contradicting the claimed symmetry invariant. -/
theorem c1_fallback_vxc_not_symmetric :
    ((get_veff ctxAsym nrRksNan2 (1 : Matrix (Fin 2) (Fin 2) ℚ)
        objTrivial2).networkCalls.length = 1)
    ∧ ¬ ((get_veff ctxAsym nrRksNan2 (1 : Matrix (Fin 2) (Fin 2) ℚ)
          objTrivial2).obj.vxc
        = VxcTensor.transposeLast
            (get_veff ctxAsym nrRksNan2 (1 : Matrix (Fin 2) (Fin 2) ℚ)
              objTrivial2).obj.vxc) := by
  have hv : (get_veff ctxAsym nrRksNan2 (1 : Matrix (Fin 2) (Fin 2) ℚ)
      objTrivial2).obj.vxc = VxcTensor.single gradAsym := by
    simp [get_veff, nrRksNan2, FVal.isnan, ctxAsym, restoreSym_one]
  constructor
  · simp [get_veff, nrRksNan2, FVal.isnan]
  · rw [hv]
    intro h
    simp only [VxcTensor.transposeLast, VxcTensor.single.injEq] at h
    have h01 := congrFun (congrFun h 0) 1
    simp [gradAsym, Matrix.transpose_apply] at h01
